import Mathlib

/-!
Verification development for the `louskuttelua` etymology-enrichment pipeline
(`src/etymology.py`).

The Python program is embedded shallowly:

* the external Kotus lexicon service is a record of two response functions
  (`qs-ajax-results` candidates and `qs-results` candidates), so that
  `word_exists` and `Kotus.search` are the literal decision logic of the
  Python methods applied to those responses;
* the `finnsyll` compound splitter is an abstract function
  `String → List String`, standing for `finn_syll.split(segment).split("=")`;
* Python `dict`s are association lists in insertion order; `d[k] = v`
  becomes `setEntry`, `k in d` becomes `containsKey`, `d.get(k, default)`
  becomes `(getEntry m k).getD default`; `dict(sorted(d.items()))` becomes a
  stable insertion sort on the key order;
* the mutation of the store and the `open(...).write(...)` checkpoints become
  explicit state passing: `updateGo` returns the final root document, the
  list of persisted full-document snapshots (one per epithet, in order), and
  the trace of words for which `Kotus().search` (and hence the network) was
  invoked.
-/

namespace Louskuttelua

/-- Char-level lowercasing applied to epithets: ASCII letters are lowered and
the Finnish capitals Ä, Å, Ö map to ä, å, ö.  This is the fragment of CPython
`str.lower` relevant to the permitted alphabet of `clean_epithet`. -/
def pyLower (c : Char) : Char :=
  if c = 'Ä' then 'ä' else if c = 'Å' then 'å' else if c = 'Ö' then 'ö' else c.toLower

/-- Characters kept by the substitution `re.sub(r"[^a-zäåö -]", "", ...)`:
the class is a–z, ä, å, ö, space and (literal trailing) hyphen. -/
def allowedChar (c : Char) : Bool :=
  (decide ('a' ≤ c) && decide (c ≤ 'z')) || c == 'ä' || c == 'å' || c == 'ö'
    || c == ' ' || c == '-'

/-- `clean_epithet`: lowercase, then drop every character outside the
permitted set. -/
def clean_epithet (epithet : String) : String :=
  String.mk ((epithet.data.map pyLower).filter allowedChar)

/-- Helper for `splitOnSpace`: accumulates the current token (reversed). -/
def splitOnSpaceAux : List Char → List Char → List String
  | [], acc => [String.mk acc.reverse]
  | c :: rest, acc =>
      if c = ' ' then String.mk acc.reverse :: splitOnSpaceAux rest []
      else splitOnSpaceAux rest (c :: acc)

/-- Python `s.split(" ")`: split at every single space; consecutive, leading
and trailing spaces yield empty tokens, and `"".split(" ") == [""]`. -/
def splitOnSpace (s : String) : List String :=
  splitOnSpaceAux s.data []

/-- Add a word to a Python-`set`-as-list: no duplicates, order of first
insertion kept (the set's iteration order is unspecified in Python; any
duplicate-free listing is a faithful model). -/
def insertWord (l : List String) (w : String) : List String :=
  if w ∈ l then l else l ++ [w]

/-- `set(tokens)`: the duplicate-free list of tokens. -/
def dedupKeepFirst (l : List String) : List String :=
  l.foldl insertWord []

/-- `to_words`: the whitespace tokens of the (already cleaned) epithet as a
set; for each original token, if the compound splitter breaks it into more
than one sub-part those sub-parts are added (the token itself stays).  The
fold ranges over the snapshot `list(segments)`, exactly as the Python loop
does. -/
def to_words (finn_split : String → List String) (epithet : String) : List String :=
  let segments := dedupKeepFirst (splitOnSpace epithet)
  segments.foldl
    (fun acc segment =>
      let compound_words := finn_split segment
      if compound_words.length > 1 then compound_words.foldl insertWord acc else acc)
    segments

/-- The loop body of `to_words`, named for the proofs below. -/
def twStep (finn_split : String → List String) (acc : List String) (segment : String) :
    List String :=
  let compound_words := finn_split segment
  if compound_words.length > 1 then compound_words.foldl insertWord acc else acc

/-- `Etymology` dataclass. -/
structure Etymology where
  definition : String
  url : String
deriving DecidableEq

/-- One candidate of a `qs-ajax-results` response; only its `value` field is
consulted. -/
structure QsCandidate where
  value : String
deriving DecidableEq

/-- One candidate of a `qs-results` response: headword, gloss, article id. -/
structure EtymRecord where
  hakusana : String
  selite : String
  etym_id : Nat
deriving DecidableEq

/-- The external Kotus service, as the candidates its two query modes return
for each word.  A network failure is out of scope here (it aborts the Python
run before any further state change). -/
structure KotusService where
  qsAjaxResults : String → List QsCandidate
  qsResults : String → List EtymRecord

/-- `Kotus._etym_link` instantiated with an article id. -/
def etym_link (etym_id : Nat) : String :=
  "https://kaino.kotus.fi/ses/?p=article&etym_id=" ++ toString etym_id

/-- `Kotus.word_exists`: some candidate's `value` equals the query exactly. -/
def word_exists (svc : KotusService) (word : String) : Bool :=
  (svc.qsAjaxResults word).any (fun e => e.value == word)

/-- `Kotus.search`: `none` when `word_exists` is false; otherwise the first
`qs-results` candidate whose `hakusana` equals the word exactly, or `none`
(logged as an anomaly in the Python) when there is no such candidate. -/
def Kotus.search (svc : KotusService) (word : String) : Option Etymology :=
  if word_exists svc word then
    match (svc.qsResults word).find? (fun e => e.hakusana == word) with
    | none => none
    | some record =>
        some { definition := record.selite, url := etym_link record.etym_id }
  else none

/-- First value stored under a key in a Python-dict-as-association-list. -/
def getEntry {α : Type} : List (String × α) → String → Option α
  | [], _ => none
  | (k', v) :: rest, k => if k' = k then some v else getEntry rest k

/-- Python `d[k] = v`: replace the value at the key when present (keys are
unique in a real `dict`, so "the first occurrence" is "the occurrence"),
otherwise append at the end, as `dict` insertion order does. -/
def setEntry {α : Type} : List (String × α) → String → α → List (String × α)
  | [], k, v => [(k, v)]
  | (k', v') :: rest, k, v =>
      if k' = k then (k, v) :: rest else (k', v') :: setEntry rest k v

/-- Python `k in d`. -/
def containsKey {α : Type} (m : List (String × α)) (k : String) : Bool :=
  (getEntry m k).isSome

/-- The keys of a dict, in order. -/
def keysOf {α : Type} (m : List (String × α)) : List String :=
  m.map Prod.fst

/-- A per-epithet submap: word → etymology record or the explicit `None`
marker (`null` in the persisted JSON). -/
abbrev Submap := List (String × Option Etymology)

/-- Lexicographic "less or equal" on character lists by code point — the
order CPython's `str` comparison (and hence `sorted`) uses. -/
def listLE : List Char → List Char → Bool
  | [], _ => true
  | _ :: _, [] => false
  | a :: as, b :: bs =>
      if a.toNat < b.toNat then true
      else if b.toNat < a.toNat then false
      else listLE as bs

/-- Python `s <= t` on strings. -/
def strLE (s t : String) : Bool :=
  listLE s.data t.data

/-- Key order used by `dict(sorted(epithet_etymologies.items()))`: the tuples
are compared on their first components (dict keys are unique, so the values
are never reached). -/
def keyLE (a b : String × Option Etymology) : Prop :=
  strLE a.1 b.1 = true

instance : DecidableRel keyLE :=
  fun a b => inferInstanceAs (Decidable (strLE a.1 b.1 = true))

theorem listLE_cons_iff {a b : Char} {as bs : List Char} :
    listLE (a :: as) (b :: bs) = true ↔
      a.toNat < b.toNat ∨ (a.toNat = b.toNat ∧ listLE as bs = true) := by
  simp only [listLE]
  split_ifs with h1 h2
  · simp only [true_iff]
    exact Or.inl h1
  · constructor
    · intro h; cases h
    · rintro (h | ⟨h, _⟩) <;> omega
  · constructor
    · intro h
      exact Or.inr ⟨by omega, h⟩
    · rintro (h | ⟨_, h⟩)
      · omega
      · exact h

theorem listLE_total : ∀ as bs : List Char, listLE as bs = true ∨ listLE bs as = true := by
  intro as
  induction as with
  | nil => intro bs; exact Or.inl rfl
  | cons a as ih =>
    intro bs
    cases bs with
    | nil => exact Or.inr rfl
    | cons b bs =>
      rcases Nat.lt_trichotomy a.toNat b.toNat with h | h | h
      · exact Or.inl (listLE_cons_iff.mpr (Or.inl h))
      · rcases ih bs with h' | h'
        · exact Or.inl (listLE_cons_iff.mpr (Or.inr ⟨h, h'⟩))
        · exact Or.inr (listLE_cons_iff.mpr (Or.inr ⟨h.symm, h'⟩))
      · exact Or.inr (listLE_cons_iff.mpr (Or.inl h))

theorem listLE_trans : ∀ as bs cs : List Char,
    listLE as bs = true → listLE bs cs = true → listLE as cs = true := by
  intro as
  induction as with
  | nil => intro bs cs _ _; rfl
  | cons a as ih =>
    intro bs cs h1 h2
    cases bs with
    | nil => cases h1
    | cons b bs =>
      cases cs with
      | nil => cases h2
      | cons c cs =>
        rcases listLE_cons_iff.mp h1 with hab | ⟨hab, htail1⟩ <;>
          rcases listLE_cons_iff.mp h2 with hbc | ⟨hbc, htail2⟩
        · exact listLE_cons_iff.mpr (Or.inl (by omega))
        · exact listLE_cons_iff.mpr (Or.inl (by omega))
        · exact listLE_cons_iff.mpr (Or.inl (by omega))
        · exact listLE_cons_iff.mpr (Or.inr ⟨by omega, ih bs cs htail1 htail2⟩)

instance : IsTotal (String × Option Etymology) keyLE :=
  ⟨fun a b => listLE_total a.1.data b.1.data⟩

instance : IsTrans (String × Option Etymology) keyLE :=
  ⟨fun _ _ _ h1 h2 => listLE_trans _ _ _ h1 h2⟩

/-- `dict(sorted(d.items()))`: a stable sort of the entries by key. -/
def sortSubmap (m : Submap) : Submap :=
  List.insertionSort keyLE m

/-- The word loop of `search_etymologies`: skip a word already recorded when
the overwrite flag is off, otherwise call the service and store the result
(or the explicit `none`).  The second component is the trace of words for
which `Kotus().search` — and hence the network — was invoked. -/
def searchWords (svc : KotusService) (overwrite : Bool) :
    Submap → List String → Submap × List String
  | acc, [] => (acc, [])
  | acc, word :: rest =>
      if containsKey acc word && !overwrite then searchWords svc overwrite acc rest
      else
        let acc' := setEntry acc word (Kotus.search svc word)
        let r := searchWords svc overwrite acc' rest
        (r.1, word :: r.2)

/-- `search_etymologies`: clean the epithet, build its word set, resolve each
word, and return the submap re-keyed in sorted order, together with the trace
of queried words. -/
def search_etymologies (svc : KotusService) (finn_split : String → List String)
    (overwrite : Bool) (epithet : String) (epithet_etymologies : Submap) :
    Submap × List String :=
  let cleaned_epithet := clean_epithet epithet
  let words := to_words finn_split cleaned_epithet
  let r := searchWords svc overwrite epithet_etymologies words
  (sortSubmap r.1, r.2)

/-- A value of the top-level persisted document: the `"etymologies"`
collection, or an opaque other value (carried through untouched). -/
inductive RootVal : Type where
  | emap : List (String × Submap) → RootVal
  | blob : String → RootVal
deriving DecidableEq

/-- The persisted root document: a JSON object as an association list. -/
abbrev Root := List (String × RootVal)

/-- The value of the `"etymologies"` key, as the mutable alias
`etymologies = etymologies_root.setdefault("etymologies", {})` sees it. -/
def getEtymMap (root : Root) : List (String × Submap) :=
  match getEntry root "etymologies" with
  | some (RootVal.emap m) => m
  | _ => []

/-- `etymologies_root.setdefault("etymologies", {})`: insert the key with an
empty collection when absent, leave the document alone otherwise. -/
def setdefaultEtym (root : Root) : Root :=
  if containsKey root "etymologies" then root
  else root ++ [("etymologies", RootVal.emap [])]

/-- The document is well-typed at `"etymologies"`: the key, when present,
holds a collection (Python would raise on `.get` otherwise, making any run
on a non-empty epithet list impossible). -/
def etymOk (root : Root) : Bool :=
  match getEntry root "etymologies" with
  | some (RootVal.blob _) => false
  | _ => true

/-- One iteration of the epithet loop of `update_etymologies`: resolve the
epithet's words starting from the stored submap
(`etymologies.get(epithet, {})`) and store the sorted result back under the
`"etymologies"` key (`etymologies[epithet] = search_etymologies(...)`).
Returns the new root document (= what is then persisted) and the trace of
queried words. -/
def processEpithet (svc : KotusService) (finn_split : String → List String)
    (overwrite : Bool) (root : Root) (epithet : String) : Root × List String :=
  (setEntry root "etymologies" (RootVal.emap (setEntry (getEtymMap root) epithet
      (search_etymologies svc finn_split overwrite epithet
        ((getEntry (getEtymMap root) epithet).getD [])).1)),
   (search_etymologies svc finn_split overwrite epithet
      ((getEntry (getEtymMap root) epithet).getD [])).2)

/-- The epithet loop of `update_etymologies`: for each epithet in input
order, run `processEpithet` and persist the full root document.  Returns the
final root, the snapshots persisted after each epithet (in order), and the
concatenated trace of queried words. -/
def updateGo (svc : KotusService) (finn_split : String → List String)
    (overwrite : Bool) : Root → List String → Root × List Root × List String
  | root, [] => (root, [], [])
  | root, epithet :: rest =>
      ((updateGo svc finn_split overwrite
          (processEpithet svc finn_split overwrite root epithet).1 rest).1,
       (processEpithet svc finn_split overwrite root epithet).1 ::
         (updateGo svc finn_split overwrite
           (processEpithet svc finn_split overwrite root epithet).1 rest).2.1,
       (processEpithet svc finn_split overwrite root epithet).2 ++
         (updateGo svc finn_split overwrite
           (processEpithet svc finn_split overwrite root epithet).1 rest).2.2)

/-- `update_etymologies`: `setdefault` the collection, then run the epithet
loop.  The input epithets document is only read (the embedding takes the
list of epithets and returns no modified version, as the Python performs no
write on `epithets_root`). -/
def update_etymologies (svc : KotusService) (finn_split : String → List String)
    (overwrite : Bool) (root : Root) (epithets : List String) :
    Root × List Root × List String :=
  updateGo svc finn_split overwrite (setdefaultEtym root) epithets

/-- Module constant `OVERWRITE_EXISTING = False`. -/
def OVERWRITE_EXISTING : Bool := false

/-- The word set of an epithet as `search_etymologies` computes it. -/
def wordsOf (finn_split : String → List String) (epithet : String) : List String :=
  to_words finn_split (clean_epithet epithet)

/-- An epithet is fully resolved in the outer collection: its stored submap
exists, covers every word of the epithet's word set, and is key-sorted. -/
def DoneMap (finn_split : String → List String)
    (m : List (String × Submap)) (epithet : String) : Prop :=
  ∃ sub, getEntry m epithet = some sub ∧
    (∀ w ∈ wordsOf finn_split epithet, containsKey sub w = true) ∧
    List.Sorted keyLE sub

-- Sanity examples (C1 scenario building blocks).

/-- The service of the concrete scenario: "vanha" exists with gloss "old"
and article id 5; "akka" is unknown. -/
def svcC1 : KotusService where
  qsAjaxResults w := if w = "vanha" then [⟨"vanha"⟩] else []
  qsResults w := if w = "vanha" then [⟨"vanha", "old", 5⟩] else []

/-- The compound splitter of the concrete scenario: splits nothing. -/
def spC1 : String → List String := fun w => [w]

/-- A service exhibiting the exists/lookup anomaly for the word "outo": the
quick-search reports it, the detailed query returns no candidate. -/
def svcAnomaly : KotusService where
  qsAjaxResults _ := [⟨"outo"⟩]
  qsResults _ := []

example : clean_epithet "vanha akka" = "vanha akka" := by decide
example : splitOnSpace "vanha akka" = ["vanha", "akka"] := by decide
example : to_words spC1 "vanha akka" = ["vanha", "akka"] := by decide
example : Kotus.search svcC1 "vanha" =
    some ⟨"old", "https://kaino.kotus.fi/ses/?p=article&etym_id=5"⟩ := by decide
example : Kotus.search svcC1 "akka" = none := by decide

/-! ### Association-list (Python dict) lemmas -/

theorem getEntry_setEntry_self {α : Type} (m : List (String × α)) (k : String) (v : α) :
    getEntry (setEntry m k v) k = some v := by
  induction m with
  | nil => simp [setEntry, getEntry]
  | cons p rest ih =>
    obtain ⟨k', v'⟩ := p
    by_cases h : k' = k
    · simp [setEntry, getEntry, h]
    · simp [setEntry, getEntry, h, ih]

theorem getEntry_setEntry_ne {α : Type} (m : List (String × α)) {k' k : String}
    (h : k' ≠ k) (v : α) : getEntry (setEntry m k' v) k = getEntry m k := by
  induction m with
  | nil => simp [setEntry, getEntry, h]
  | cons p rest ih =>
    obtain ⟨k0, v0⟩ := p
    by_cases h0 : k0 = k'
    · subst h0
      simp [setEntry, getEntry, h]
    · simp only [setEntry, if_neg h0, getEntry]
      by_cases h1 : k0 = k
      · simp [h1]
      · simp [h1, ih]

theorem setEntry_eq_self {α : Type} {m : List (String × α)} {k : String} {v : α}
    (h : getEntry m k = some v) : setEntry m k v = m := by
  induction m with
  | nil => simp [getEntry] at h
  | cons p rest ih =>
    obtain ⟨k0, v0⟩ := p
    by_cases h0 : k0 = k
    · subst h0
      simp only [getEntry, if_pos] at h
      injection h with h
      simp [setEntry, h]
    · simp only [getEntry, if_neg h0] at h
      simp [setEntry, h0, ih h]

theorem getEntry_append_single_ne {α : Type} (m : List (String × α)) {k k0 : String}
    (h : k0 ≠ k) (v : α) : getEntry (m ++ [(k0, v)]) k = getEntry m k := by
  induction m with
  | nil => simp [getEntry, h]
  | cons p rest ih =>
    obtain ⟨k1, v1⟩ := p
    by_cases h1 : k1 = k
    · simp [getEntry, h1]
    · simp [getEntry, h1, ih]

theorem getEntry_append_single_self {α : Type} {m : List (String × α)} {k : String}
    (h : getEntry m k = none) (v : α) : getEntry (m ++ [(k, v)]) k = some v := by
  induction m with
  | nil => simp [getEntry]
  | cons p rest ih =>
    obtain ⟨k1, v1⟩ := p
    by_cases h1 : k1 = k
    · simp [getEntry, h1] at h
    · simp only [getEntry, if_neg h1] at h
      simp [getEntry, h1, ih h]

theorem containsKey_iff_mem_keys {α : Type} {m : List (String × α)} {k : String} :
    containsKey m k = true ↔ k ∈ keysOf m := by
  induction m with
  | nil => simp [containsKey, getEntry, keysOf]
  | cons p rest ih =>
    obtain ⟨k0, v0⟩ := p
    by_cases h0 : k0 = k
    · simp [containsKey, getEntry, keysOf, h0]
    · simp only [containsKey, getEntry, if_neg h0, keysOf, List.map_cons, List.mem_cons]
      rw [← keysOf, ← containsKey, ih]
      constructor
      · exact Or.inr
      · rintro (h | h)
        · exact absurd h.symm h0
        · exact h

theorem getEntry_eq_none_iff {α : Type} {m : List (String × α)} {k : String} :
    getEntry m k = none ↔ k ∉ keysOf m := by
  rw [← containsKey_iff_mem_keys]
  simp [containsKey, Option.isSome_iff_ne_none]

theorem containsKey_setEntry_self {α : Type} (m : List (String × α)) (k : String) (v : α) :
    containsKey (setEntry m k v) k = true := by
  simp [containsKey, getEntry_setEntry_self]

theorem containsKey_setEntry_ne {α : Type} (m : List (String × α)) {k' k : String}
    (h : k' ≠ k) (v : α) : containsKey (setEntry m k' v) k = containsKey m k := by
  simp [containsKey, getEntry_setEntry_ne m h]

theorem containsKey_setEntry_of {α : Type} {m : List (String × α)} {k : String}
    (k' : String) (v : α) (h : containsKey m k = true) :
    containsKey (setEntry m k' v) k = true := by
  by_cases hk : k' = k
  · subst hk; exact containsKey_setEntry_self m k' v
  · rw [containsKey_setEntry_ne m hk]; exact h

theorem getEntry_mem {α : Type} {m : List (String × α)} {k : String} {v : α}
    (h : getEntry m k = some v) : (k, v) ∈ m := by
  induction m with
  | nil => simp [getEntry] at h
  | cons p rest ih =>
    obtain ⟨k0, v0⟩ := p
    by_cases h0 : k0 = k
    · subst h0
      simp only [getEntry, if_pos] at h
      injection h with h
      subst h
      exact List.mem_cons_self _ _
    · simp only [getEntry, if_neg h0] at h
      exact List.mem_cons_of_mem _ (ih h)

theorem getEntry_of_mem_nodup {α : Type} {m : List (String × α)} {k : String} {v : α}
    (hn : (keysOf m).Nodup) (h : (k, v) ∈ m) : getEntry m k = some v := by
  induction m with
  | nil => simp at h
  | cons p rest ih =>
    obtain ⟨k0, v0⟩ := p
    simp only [keysOf, List.map_cons, List.nodup_cons] at hn
    rcases List.mem_cons.mp h with h | h
    · injection h with hk hv
      subst hk
      subst hv
      simp [getEntry]
    · have hk0 : k0 ≠ k := by
        intro he
        subst he
        exact hn.1 (List.mem_map.mpr ⟨(k0, v), h, rfl⟩)
      simp only [getEntry, if_neg hk0]
      exact ih hn.2 h

theorem nodup_keys_setEntry {α : Type} {m : List (String × α)} (k : String) (v : α)
    (hn : (keysOf m).Nodup) : (keysOf (setEntry m k v)).Nodup := by
  induction m with
  | nil => simp [setEntry, keysOf]
  | cons p rest ih =>
    obtain ⟨k0, v0⟩ := p
    simp only [keysOf, List.map_cons, List.nodup_cons] at hn
    by_cases h0 : k0 = k
    · subst h0
      simpa [setEntry, keysOf] using hn
    · have : keysOf (setEntry rest k v) = keysOf rest ∨
          keysOf (setEntry rest k v) = keysOf rest ++ [k] := by
        clear ih hn
        induction rest with
        | nil => simp [setEntry, keysOf]
        | cons q rest' ih' =>
          obtain ⟨k1, v1⟩ := q
          by_cases h1 : k1 = k
          · subst h1
            simp [setEntry, keysOf]
          · rcases ih' with h' | h' <;>
              simp [setEntry, keysOf, h1, h'] at * <;> simp [h']
      simp only [setEntry, if_neg h0, keysOf, List.map_cons, List.nodup_cons]
      refine ⟨?_, ih hn.2⟩
      rcases this with h' | h'
      · rw [keysOf] at h'
        rw [h']
        exact hn.1
      · rw [keysOf] at h'
        rw [h']
        simp only [List.mem_append, List.mem_singleton]
        rintro (hmem | hmem)
        · exact hn.1 hmem
        · exact h0 hmem

/-! ### Sorted re-keying (`dict(sorted(...))`) lemmas -/

theorem sortSubmap_perm (m : Submap) : List.Perm (sortSubmap m) m :=
  List.perm_insertionSort keyLE m

theorem sorted_sortSubmap (m : Submap) : List.Sorted keyLE (sortSubmap m) :=
  List.sorted_insertionSort keyLE m

theorem sortSubmap_eq_of_sorted {m : Submap} (h : List.Sorted keyLE m) :
    sortSubmap m = m :=
  h.insertionSort_eq

theorem keysOf_sortSubmap_perm (m : Submap) : List.Perm (keysOf (sortSubmap m)) (keysOf m) :=
  (sortSubmap_perm m).map Prod.fst

theorem containsKey_sortSubmap (m : Submap) (k : String) :
    containsKey (sortSubmap m) k = containsKey m k := by
  rw [Bool.eq_iff_iff, containsKey_iff_mem_keys, containsKey_iff_mem_keys]
  exact (keysOf_sortSubmap_perm m).mem_iff

theorem nodup_keys_sortSubmap {m : Submap} (hn : (keysOf m).Nodup) :
    (keysOf (sortSubmap m)).Nodup :=
  (keysOf_sortSubmap_perm m).nodup_iff.mpr hn

theorem getEntry_sortSubmap {m : Submap} (hn : (keysOf m).Nodup) (k : String) :
    getEntry (sortSubmap m) k = getEntry m k := by
  cases h : getEntry m k with
  | none =>
    rw [getEntry_eq_none_iff] at h ⊢
    intro hmem
    exact h ((keysOf_sortSubmap_perm m).mem_iff.mp hmem)
  | some v =>
    exact getEntry_of_mem_nodup (nodup_keys_sortSubmap hn)
      ((sortSubmap_perm m).mem_iff.mpr (getEntry_mem h))

/-! ### Word-loop (`searchWords`) lemmas -/

theorem searchWords_containsKey_mono (svc : KotusService) (ow : Bool) :
    ∀ (ws : List String) (acc : Submap) (k : String), containsKey acc k = true →
      containsKey (searchWords svc ow acc ws).1 k = true := by
  intro ws
  induction ws with
  | nil => intro acc k h; exact h
  | cons w rest ih =>
    intro acc k h
    simp only [searchWords]
    split
    · exact ih acc k h
    · exact ih _ k (containsKey_setEntry_of w _ h)

theorem searchWords_covers (svc : KotusService) (ow : Bool) :
    ∀ (ws : List String) (acc : Submap), ∀ w ∈ ws,
      containsKey (searchWords svc ow acc ws).1 w = true := by
  intro ws
  induction ws with
  | nil => intro acc w h; simp at h
  | cons x rest ih =>
    intro acc w hw
    simp only [searchWords]
    rcases List.mem_cons.mp hw with rfl | hw
    · split
      · rename_i hcond
        have hx : containsKey acc w = true := by
          have h' := hcond
          simp only [Bool.and_eq_true] at h'
          exact h'.1
        exact searchWords_containsKey_mono svc ow rest acc w hx
      · exact searchWords_containsKey_mono svc ow rest _ w (containsKey_setEntry_self acc w _)
    · split
      · exact ih acc w hw
      · exact ih _ w hw

theorem searchWords_skip_all (svc : KotusService) :
    ∀ (ws : List String) (acc : Submap), (∀ w ∈ ws, containsKey acc w = true) →
      searchWords svc false acc ws = (acc, []) := by
  intro ws
  induction ws with
  | nil => intro acc _; rfl
  | cons x rest ih =>
    intro acc h
    have hx : containsKey acc x = true := h x (List.mem_cons_self x rest)
    simp only [searchWords, hx, Bool.not_false, Bool.and_true, if_pos]
    exact ih acc fun w hw => h w (List.mem_cons_of_mem x hw)

theorem searchWords_getEntry_not_mem (svc : KotusService) (ow : Bool) :
    ∀ (ws : List String) (acc : Submap) (k : String), k ∉ ws →
      getEntry (searchWords svc ow acc ws).1 k = getEntry acc k := by
  intro ws
  induction ws with
  | nil => intro acc k _; rfl
  | cons x rest ih =>
    intro acc k hk
    have hkx : x ≠ k := fun h => hk (h ▸ List.mem_cons_self x rest)
    have hkr : k ∉ rest := fun h => hk (List.mem_cons_of_mem x h)
    simp only [searchWords]
    split
    · exact ih acc k hkr
    · rw [ih _ k hkr, getEntry_setEntry_ne acc hkx]

theorem searchWords_getEntry_queried (svc : KotusService) (ow : Bool) :
    ∀ (ws : List String) (acc : Submap) (w : String), ws.Nodup → w ∈ ws →
      (ow = true ∨ containsKey acc w = false) →
      getEntry (searchWords svc ow acc ws).1 w = some (Kotus.search svc w) := by
  intro ws
  induction ws with
  | nil => intro acc w _ hw; simp at hw
  | cons x rest ih =>
    intro acc w hnd hw hq
    have hnd' := List.nodup_cons.mp hnd
    rcases List.mem_cons.mp hw with rfl | hw
    · have hcond : (containsKey acc w && !ow) = false := by
        rcases hq with hq | hq
        · simp [hq]
        · simp [hq]
      simp only [searchWords, hcond, Bool.false_eq_true, if_false]
      rw [searchWords_getEntry_not_mem svc ow rest _ w hnd'.1]
      exact getEntry_setEntry_self acc w _
    · have hxw : x ≠ w := fun h => hnd'.1 (h ▸ hw)
      simp only [searchWords]
      split
      · exact ih acc w hnd'.2 hw hq
      · refine ih _ w hnd'.2 hw ?_
        rcases hq with hq | hq
        · exact Or.inl hq
        · exact Or.inr (by rw [containsKey_setEntry_ne acc hxw]; exact hq)

theorem searchWords_nodup_keys (svc : KotusService) (ow : Bool) :
    ∀ (ws : List String) (acc : Submap), (keysOf acc).Nodup →
      (keysOf (searchWords svc ow acc ws).1).Nodup := by
  intro ws
  induction ws with
  | nil => intro acc h; exact h
  | cons x rest ih =>
    intro acc h
    simp only [searchWords]
    split
    · exact ih acc h
    · exact ih _ (nodup_keys_setEntry x _ h)

/-! ### Word-set (`to_words`) lemmas -/

theorem mem_insertWord_iff {l : List String} {w x : String} :
    x ∈ insertWord l w ↔ x ∈ l ∨ x = w := by
  unfold insertWord
  split
  · rename_i h
    constructor
    · exact Or.inl
    · rintro (hx | rfl)
      · exact hx
      · exact h
  · simp

theorem mem_insertWord_of_mem {l : List String} {x : String} (w : String) (h : x ∈ l) :
    x ∈ insertWord l w :=
  mem_insertWord_iff.mpr (Or.inl h)

theorem nodup_insertWord {l : List String} (w : String) (h : l.Nodup) :
    (insertWord l w).Nodup := by
  unfold insertWord
  split
  · exact h
  · rename_i hw
    exact List.Nodup.append h (List.nodup_singleton w) (by simpa using hw)

theorem mem_foldl_insertWord :
    ∀ (ws : List String) (acc : List String) (x : String),
      x ∈ ws.foldl insertWord acc ↔ x ∈ acc ∨ x ∈ ws := by
  intro ws
  induction ws with
  | nil => intro acc x; simp
  | cons w rest ih =>
    intro acc x
    simp only [List.foldl_cons, ih, mem_insertWord_iff, List.mem_cons]
    tauto

theorem nodup_foldl_insertWord :
    ∀ (ws : List String) (acc : List String), acc.Nodup →
      (ws.foldl insertWord acc).Nodup := by
  intro ws
  induction ws with
  | nil => intro acc h; exact h
  | cons w rest ih =>
    intro acc h
    exact ih _ (nodup_insertWord w h)

theorem mem_dedupKeepFirst_iff {l : List String} {x : String} :
    x ∈ dedupKeepFirst l ↔ x ∈ l := by
  unfold dedupKeepFirst
  rw [mem_foldl_insertWord]
  simp

theorem nodup_dedupKeepFirst (l : List String) : (dedupKeepFirst l).Nodup :=
  nodup_foldl_insertWord l [] List.nodup_nil

theorem to_words_eq_foldl (finn_split : String → List String) (epithet : String) :
    to_words finn_split epithet =
      (dedupKeepFirst (splitOnSpace epithet)).foldl (twStep finn_split)
        (dedupKeepFirst (splitOnSpace epithet)) := rfl

theorem nodup_foldl_twStep (finn_split : String → List String) :
    ∀ (segs : List String) (acc : List String), acc.Nodup →
      (segs.foldl (twStep finn_split) acc).Nodup := by
  intro segs
  induction segs with
  | nil => intro acc h; exact h
  | cons s rest ih =>
    intro acc h
    simp only [List.foldl_cons, twStep]
    split
    · exact ih _ (nodup_foldl_insertWord _ acc h)
    · exact ih _ h

theorem mem_foldl_twStep_of_mem (finn_split : String → List String) :
    ∀ (segs : List String) (acc : List String) (x : String), x ∈ acc →
      x ∈ segs.foldl (twStep finn_split) acc := by
  intro segs
  induction segs with
  | nil => intro acc x h; exact h
  | cons s rest ih =>
    intro acc x h
    simp only [List.foldl_cons, twStep]
    split
    · exact ih _ x ((mem_foldl_insertWord _ acc x).mpr (Or.inl h))
    · exact ih _ x h

theorem mem_foldl_twStep (finn_split : String → List String) :
    ∀ (segs : List String) (acc : List String) (x : String),
      x ∈ segs.foldl (twStep finn_split) acc →
      x ∈ acc ∨ ∃ seg ∈ segs, (finn_split seg).length > 1 ∧ x ∈ finn_split seg := by
  intro segs
  induction segs with
  | nil => intro acc x h; exact Or.inl h
  | cons s rest ih =>
    intro acc x h
    simp only [List.foldl_cons] at h
    rcases ih _ x h with h' | ⟨seg, hseg, hlen, hx⟩
    · unfold twStep at h'
      by_cases hs : (finn_split s).length > 1
      · rw [if_pos hs] at h'
        rcases (mem_foldl_insertWord _ acc x).mp h' with h'' | h''
        · exact Or.inl h''
        · exact Or.inr ⟨s, List.mem_cons_self s rest, hs, h''⟩
      · rw [if_neg hs] at h'
        exact Or.inl h'
    · exact Or.inr ⟨seg, List.mem_cons_of_mem s hseg, hlen, hx⟩

theorem to_words_nodup (finn_split : String → List String) (epithet : String) :
    (to_words finn_split epithet).Nodup := by
  rw [to_words_eq_foldl]
  exact nodup_foldl_twStep finn_split _ _ (nodup_dedupKeepFirst _)

theorem to_words_contains_tokens (finn_split : String → List String) (epithet : String) :
    ∀ t ∈ splitOnSpace epithet, t ∈ to_words finn_split epithet := by
  intro t ht
  rw [to_words_eq_foldl]
  exact mem_foldl_twStep_of_mem finn_split _ _ t (mem_dedupKeepFirst_iff.mpr ht)

theorem to_words_only_adds (finn_split : String → List String) (epithet : String) :
    ∀ x ∈ to_words finn_split epithet,
      x ∈ splitOnSpace epithet ∨
        ∃ seg ∈ splitOnSpace epithet,
          (finn_split seg).length > 1 ∧ x ∈ finn_split seg := by
  intro x hx
  rw [to_words_eq_foldl] at hx
  rcases mem_foldl_twStep finn_split _ _ x hx with h | ⟨seg, hseg, hlen, hmem⟩
  · exact Or.inl (mem_dedupKeepFirst_iff.mp h)
  · exact Or.inr ⟨seg, mem_dedupKeepFirst_iff.mp hseg, hlen, hmem⟩

/-! ### `search_etymologies` lemmas -/

theorem wordsOf_def (finn_split : String → List String) (epithet : String) :
    wordsOf finn_split epithet = to_words finn_split (clean_epithet epithet) := rfl

theorem search_etymologies_eq (svc : KotusService) (finn_split : String → List String)
    (overwrite : Bool) (epithet : String) (init : Submap) :
    search_etymologies svc finn_split overwrite epithet init =
      (sortSubmap (searchWords svc overwrite init (wordsOf finn_split epithet)).1,
       (searchWords svc overwrite init (wordsOf finn_split epithet)).2) := rfl

theorem search_covers (svc : KotusService) (finn_split : String → List String)
    (overwrite : Bool) (epithet : String) (init : Submap) :
    ∀ w ∈ wordsOf finn_split epithet,
      containsKey (search_etymologies svc finn_split overwrite epithet init).1 w = true := by
  intro w hw
  rw [search_etymologies_eq]
  rw [containsKey_sortSubmap]
  exact searchWords_covers svc overwrite _ init w hw

theorem search_sorted (svc : KotusService) (finn_split : String → List String)
    (overwrite : Bool) (epithet : String) (init : Submap) :
    List.Sorted keyLE (search_etymologies svc finn_split overwrite epithet init).1 := by
  rw [search_etymologies_eq]
  exact sorted_sortSubmap _

theorem search_nodup_keys (svc : KotusService) (finn_split : String → List String)
    (overwrite : Bool) (epithet : String) {init : Submap} (hn : (keysOf init).Nodup) :
    (keysOf (search_etymologies svc finn_split overwrite epithet init).1).Nodup := by
  rw [search_etymologies_eq]
  exact nodup_keys_sortSubmap (searchWords_nodup_keys svc overwrite _ init hn)

theorem search_getEntry_queried (svc : KotusService) (finn_split : String → List String)
    (overwrite : Bool) (epithet : String) {init : Submap} {w : String}
    (hn : (keysOf init).Nodup)
    (hw : w ∈ wordsOf finn_split epithet)
    (hq : overwrite = true ∨ containsKey init w = false) :
    getEntry (search_etymologies svc finn_split overwrite epithet init).1 w =
      some (Kotus.search svc w) := by
  rw [search_etymologies_eq]
  rw [getEntry_sortSubmap (searchWords_nodup_keys svc overwrite _ init hn)]
  exact searchWords_getEntry_queried svc overwrite _ init w
    (to_words_nodup finn_split (clean_epithet epithet)) hw hq

theorem search_skip_all (svc : KotusService) (finn_split : String → List String)
    (epithet : String) (init : Submap)
    (hall : ∀ w ∈ wordsOf finn_split epithet, containsKey init w = true)
    (hs : List.Sorted keyLE init) :
    search_etymologies svc finn_split false epithet init = (init, []) := by
  rw [search_etymologies_eq]
  rw [searchWords_skip_all svc _ init hall]
  rw [sortSubmap_eq_of_sorted hs]

/-! ### Pipeline (`updateGo` / `update_etymologies`) lemmas -/

theorem getEtymMap_setEntry (root : Root) (m : List (String × Submap)) :
    getEtymMap (setEntry root "etymologies" (RootVal.emap m)) = m := by
  unfold getEtymMap
  rw [getEntry_setEntry_self]

theorem DoneMap_congr {finn_split : String → List String}
    {m m' : List (String × Submap)} {e : String}
    (h : getEntry m' e = getEntry m e) (hd : DoneMap finn_split m e) :
    DoneMap finn_split m' e := by
  obtain ⟨sub, hsub, hcov, hsort⟩ := hd
  exact ⟨sub, h.trans hsub, hcov, hsort⟩

theorem updateGo_preserve_epithet (svc : KotusService) (finn_split : String → List String)
    (overwrite : Bool) :
    ∀ (eps : List String) (root : Root) (e : String), e ∉ eps →
      getEntry (getEtymMap (updateGo svc finn_split overwrite root eps).1) e =
        getEntry (getEtymMap root) e := by
  intro eps
  induction eps with
  | nil => intro root e _; rfl
  | cons e0 rest ih =>
    intro root e he
    have he0 : e0 ≠ e := fun h => he (h ▸ List.mem_cons_self e0 rest)
    have her : e ∉ rest := fun h => he (List.mem_cons_of_mem e0 h)
    simp only [updateGo]
    rw [ih _ e her]
    unfold processEpithet
    rw [getEtymMap_setEntry, getEntry_setEntry_ne _ he0]

theorem updateGo_done (svc : KotusService) (finn_split : String → List String)
    (overwrite : Bool) :
    ∀ (eps : List String) (root : Root), ∀ e ∈ eps,
      DoneMap finn_split (getEtymMap (updateGo svc finn_split overwrite root eps).1) e := by
  intro eps
  induction eps with
  | nil => intro root e he; simp at he
  | cons e0 rest ih =>
    intro root e he
    simp only [updateGo]
    by_cases her : e ∈ rest
    · exact ih _ e her
    · have he0 : e = e0 := by
        rcases List.mem_cons.mp he with h | h
        · exact h
        · exact absurd h her
      subst he0
      refine DoneMap_congr
        (updateGo_preserve_epithet svc finn_split overwrite rest _ e her) ?_
      unfold processEpithet
      rw [getEtymMap_setEntry]
      exact ⟨_, getEntry_setEntry_self _ e _,
        search_covers svc finn_split overwrite e _,
        search_sorted svc finn_split overwrite e _⟩

theorem updateGo_etym_emap (svc : KotusService) (finn_split : String → List String)
    (overwrite : Bool) :
    ∀ (eps : List String) (root : Root) (m : List (String × Submap)),
      getEntry root "etymologies" = some (RootVal.emap m) →
      ∃ m', getEntry (updateGo svc finn_split overwrite root eps).1 "etymologies" =
        some (RootVal.emap m') := by
  intro eps
  induction eps with
  | nil => intro root m hm; exact ⟨m, hm⟩
  | cons e0 rest ih =>
    intro root m _
    simp only [updateGo]
    exact ih _ _ (getEntry_setEntry_self root "etymologies" _)

theorem processEpithet_id (svc : KotusService) (finn_split : String → List String)
    {root : Root} {m : List (String × Submap)} {e : String}
    (hm : getEntry root "etymologies" = some (RootVal.emap m))
    (hd : DoneMap finn_split m e) :
    processEpithet svc finn_split false root e = (root, []) := by
  obtain ⟨sub, hsub, hcov, hsort⟩ := hd
  have hmap : getEtymMap root = m := by
    unfold getEtymMap
    rw [hm]
  unfold processEpithet
  rw [hmap, hsub]
  simp only [Option.getD_some]
  rw [search_skip_all svc finn_split e sub hcov hsort]
  rw [setEntry_eq_self hsub, setEntry_eq_self hm]

theorem updateGo_id (svc : KotusService) (finn_split : String → List String) :
    ∀ (eps : List String) (root : Root) (m : List (String × Submap)),
      getEntry root "etymologies" = some (RootVal.emap m) →
      (∀ e ∈ eps, DoneMap finn_split m e) →
      updateGo svc finn_split false root eps =
        (root, List.replicate eps.length root, []) := by
  intro eps
  induction eps with
  | nil => intro root m _ _; rfl
  | cons e0 rest ih =>
    intro root m hm hd
    simp only [updateGo]
    rw [processEpithet_id svc finn_split hm (hd e0 (List.mem_cons_self e0 rest))]
    rw [ih root m hm fun e he => hd e (List.mem_cons_of_mem e0 he)]
    simp [List.replicate_succ]

theorem updateGo_snaps_length (svc : KotusService) (finn_split : String → List String)
    (overwrite : Bool) :
    ∀ (eps : List String) (root : Root),
      (updateGo svc finn_split overwrite root eps).2.1.length = eps.length := by
  intro eps
  induction eps with
  | nil => intro root; rfl
  | cons e0 rest ih =>
    intro root
    simp only [updateGo, List.length_cons, ih]

theorem updateGo_snap_take (svc : KotusService) (finn_split : String → List String)
    (overwrite : Bool) :
    ∀ (eps : List String) (k : Nat) (root : Root) (snap : Root),
      (updateGo svc finn_split overwrite root eps).2.1[k]? = some snap →
      snap = (updateGo svc finn_split overwrite root (eps.take (k + 1))).1 := by
  intro eps
  induction eps with
  | nil => intro k root snap h; simp [updateGo] at h
  | cons e0 rest ih =>
    intro k root snap h
    cases k with
    | zero =>
      simp only [updateGo, List.getElem?_cons_zero, Option.some.injEq] at h
      subst h
      rfl
    | succ k =>
      simp only [updateGo, List.getElem?_cons_succ] at h
      have := ih k _ snap h
      simpa only [List.take_succ_cons, updateGo] using this

theorem updateGo_getEntry_other (svc : KotusService) (finn_split : String → List String)
    (overwrite : Bool) :
    ∀ (eps : List String) (root : Root) (k : String), k ≠ "etymologies" →
      getEntry (updateGo svc finn_split overwrite root eps).1 k = getEntry root k := by
  intro eps
  induction eps with
  | nil => intro root k _; rfl
  | cons e0 rest ih =>
    intro root k hk
    simp only [updateGo]
    rw [ih _ k hk]
    unfold processEpithet
    exact getEntry_setEntry_ne root (fun h => hk h.symm) _

theorem updateGo_snaps_getEntry_other (svc : KotusService)
    (finn_split : String → List String) (overwrite : Bool) :
    ∀ (eps : List String) (root : Root) (k : String), k ≠ "etymologies" →
      ∀ snap ∈ (updateGo svc finn_split overwrite root eps).2.1,
        getEntry snap k = getEntry root k := by
  intro eps
  induction eps with
  | nil => intro root k _ snap h; simp [updateGo] at h
  | cons e0 rest ih =>
    intro root k hk snap h
    simp only [updateGo, List.mem_cons] at h
    have hstep : getEntry (processEpithet svc finn_split overwrite root e0).1 k =
        getEntry root k := by
      unfold processEpithet
      exact getEntry_setEntry_ne root (fun h' => hk h'.symm) _
    rcases h with rfl | h
    · exact hstep
    · rw [ih _ k hk snap h, hstep]

theorem setdefaultEtym_getEntry_other (root : Root) {k : String} (h : k ≠ "etymologies") :
    getEntry (setdefaultEtym root) k = getEntry root k := by
  unfold setdefaultEtym
  split
  · rfl
  · exact getEntry_append_single_ne root (fun h' => h h'.symm) _

theorem setdefaultEtym_emap (root : Root) (hok : etymOk root = true) :
    ∃ m, getEntry (setdefaultEtym root) "etymologies" = some (RootVal.emap m) := by
  unfold setdefaultEtym
  unfold etymOk at hok
  cases hv : getEntry root "etymologies" with
  | none =>
    rw [containsKey]
    rw [hv]
    simp only [Option.isSome_none, Bool.false_eq_true, if_false]
    exact ⟨[], getEntry_append_single_self hv _⟩
  | some v =>
    rw [containsKey]
    rw [hv]
    simp only [Option.isSome_some, if_true]
    cases v with
    | emap m => exact ⟨m, hv⟩
    | blob s => rw [hv] at hok; simp at hok

theorem setdefaultEtym_eq_self {root : Root} (h : containsKey root "etymologies" = true) :
    setdefaultEtym root = root := by
  unfold setdefaultEtym
  rw [h]
  simp

/-! ### The claims -/

/-- C1: for the input document with the single epithet "vanha akka", an empty
prior store, a lexicon where "vanha" exists with definition "old" and etym id
5 while "akka" does not exist, and a compound splitter that splits neither
word, the pipeline produces the store mapping "vanha akka" to
akka ↦ null, vanha ↦ the record with the article-5 url — inner keys in
sorted order. -/
theorem c1_concrete_scenario :
    (update_etymologies svcC1 spC1 OVERWRITE_EXISTING [] ["vanha akka"]).1 =
      [("etymologies", RootVal.emap [("vanha akka",
        [("akka", none),
         ("vanha", some ⟨"old", "https://kaino.kotus.fi/ses/?p=article&etym_id=5"⟩)])])] := by
  decide

/-- C2: running the pipeline a second time, with the overwrite flag off, on
the same input and on the store produced by the first run, makes no lexicon
calls (the trace of queried words is empty) and leaves the final root
document identical to the first run's. -/
theorem c2_second_run_is_noop (svc : KotusService) (finn_split : String → List String)
    (overwrite : Bool) (root : Root) (epithets : List String)
    (hok : etymOk root = true) :
    (update_etymologies svc finn_split false
        (update_etymologies svc finn_split overwrite root epithets).1 epithets).1 =
      (update_etymologies svc finn_split overwrite root epithets).1 ∧
    (update_etymologies svc finn_split false
        (update_etymologies svc finn_split overwrite root epithets).1 epithets).2.2 = [] := by
  unfold update_etymologies
  obtain ⟨m0, hm0⟩ := setdefaultEtym_emap root hok
  obtain ⟨m1, hm1⟩ :=
    updateGo_etym_emap svc finn_split overwrite epithets (setdefaultEtym root) m0 hm0
  have hdone : ∀ e ∈ epithets, DoneMap finn_split m1 e := by
    intro e he
    have h := updateGo_done svc finn_split overwrite epithets (setdefaultEtym root) e he
    have hmap : getEtymMap
        (updateGo svc finn_split overwrite (setdefaultEtym root) epithets).1 = m1 := by
      unfold getEtymMap
      rw [hm1]
    rwa [hmap] at h
  have hsd : setdefaultEtym
      (updateGo svc finn_split overwrite (setdefaultEtym root) epithets).1 =
      (updateGo svc finn_split overwrite (setdefaultEtym root) epithets).1 :=
    setdefaultEtym_eq_self (by rw [containsKey, hm1]; rfl)
  rw [hsd]
  rw [updateGo_id svc finn_split epithets _ m1 hm1 hdone]
  exact ⟨rfl, rfl⟩

/-- Witness for C2 at a concrete well-typed store. -/
theorem c2_second_run_is_noop_witness :
    etymOk [] = true ∧
    ((update_etymologies svcC1 spC1 false
        (update_etymologies svcC1 spC1 false [] ["vanha akka"]).1 ["vanha akka"]).1 =
      (update_etymologies svcC1 spC1 false [] ["vanha akka"]).1 ∧
    (update_etymologies svcC1 spC1 false
        (update_etymologies svcC1 spC1 false [] ["vanha akka"]).1 ["vanha akka"]).2.2 = []) :=
  ⟨by decide, c2_second_run_is_noop svcC1 spC1 false [] ["vanha akka"] (by decide)⟩

/-- C3: in every persisted snapshot, every epithet already processed at that
point has its stored submap's word-keys in lexicographically sorted order,
for all inputs. -/
theorem c3_stored_submaps_sorted (svc : KotusService) (finn_split : String → List String)
    (overwrite : Bool) (root : Root) (epithets : List String)
    (k : Nat) (snap : Root) (e : String) (sub : Submap)
    (hsnap : (update_etymologies svc finn_split overwrite root epithets).2.1[k]? = some snap)
    (he : e ∈ epithets.take (k + 1))
    (hsub : getEntry (getEtymMap snap) e = some sub) :
    List.Sorted (fun a b => strLE a b = true) (keysOf sub) := by
  unfold update_etymologies at hsnap
  have hpre := updateGo_snap_take svc finn_split overwrite epithets k _ snap hsnap
  subst hpre
  obtain ⟨sub', hsub', hcov, hsort⟩ :=
    updateGo_done svc finn_split overwrite (epithets.take (k + 1)) (setdefaultEtym root) e he
  rw [hsub'] at hsub
  injection hsub with hsub
  subst hsub
  show List.Pairwise (fun a b => strLE a b = true) (List.map Prod.fst sub')
  rw [List.pairwise_map]
  exact hsort

/-- Witness for C3 at the concrete scenario's first snapshot. -/
theorem c3_stored_submaps_sorted_witness :
    (update_etymologies svcC1 spC1 false [] ["vanha akka"]).2.1[0]? =
        some [("etymologies", RootVal.emap [("vanha akka",
          [("akka", none),
           ("vanha", some ⟨"old", "https://kaino.kotus.fi/ses/?p=article&etym_id=5"⟩)])])] ∧
    "vanha akka" ∈ (["vanha akka"] : List String).take 1 ∧
    List.Sorted (fun a b => strLE a b = true) (keysOf
      ([("akka", none),
        ("vanha", some ⟨"old", "https://kaino.kotus.fi/ses/?p=article&etym_id=5"⟩)] : Submap)) :=
  ⟨by decide, by decide,
    c3_stored_submaps_sorted svcC1 spC1 false [] ["vanha akka"] 0
      [("etymologies", RootVal.emap [("vanha akka",
        [("akka", none),
         ("vanha", some ⟨"old", "https://kaino.kotus.fi/ses/?p=article&etym_id=5"⟩)])])]
      "vanha akka"
      [("akka", none),
       ("vanha", some ⟨"old", "https://kaino.kotus.fi/ses/?p=article&etym_id=5"⟩)]
      (by decide) (by decide) (by decide)⟩

/-- C4: one full-document snapshot is persisted per epithet, and the k-th
snapshot equals the full state of a run over just the first k+1 epithets: an
interruption after k completed epithets loses nothing of those epithets. -/
theorem c4_checkpoint_after_each_epithet (svc : KotusService)
    (finn_split : String → List String) (overwrite : Bool) (root : Root)
    (epithets : List String) (k : Nat) (hk : k < epithets.length) :
    (update_etymologies svc finn_split overwrite root epithets).2.1.length =
      epithets.length ∧
    (update_etymologies svc finn_split overwrite root epithets).2.1[k]? =
      some (update_etymologies svc finn_split overwrite root (epithets.take (k + 1))).1 := by
  unfold update_etymologies
  refine ⟨updateGo_snaps_length svc finn_split overwrite epithets _, ?_⟩
  have hlen : k <
      (updateGo svc finn_split overwrite (setdefaultEtym root) epithets).2.1.length := by
    rw [updateGo_snaps_length]
    exact hk
  have hsome := List.getElem?_eq_getElem hlen
  rw [hsome]
  rw [updateGo_snap_take svc finn_split overwrite epithets k _ _ hsome]

/-- Witness for C4 at the concrete scenario. -/
theorem c4_checkpoint_after_each_epithet_witness :
    0 < (["vanha akka"] : List String).length ∧
    ((update_etymologies svcC1 spC1 false [] ["vanha akka"]).2.1.length =
        (["vanha akka"] : List String).length ∧
      (update_etymologies svcC1 spC1 false [] ["vanha akka"]).2.1[0]? =
        some (update_etymologies svcC1 spC1 false []
          ((["vanha akka"] : List String).take 1)).1) :=
  ⟨by decide, c4_checkpoint_after_each_epithet svcC1 spC1 false [] ["vanha akka"] 0 (by decide)⟩

/-- C6: when the exists-check says true but the detailed query holds no
candidate keyed exactly by the word, the lookup returns the absent result;
every word of the epithet is still recorded (processing continues), and the
anomalous word itself is recorded with the explicit absent marker whenever it
was eligible for querying. -/
theorem c6_anomaly_treated_as_absent (svc : KotusService) (word : String)
    (hex : word_exists svc word = true)
    (hmiss : (svc.qsResults word).find? (fun e => e.hakusana == word) = none) :
    Kotus.search svc word = none ∧
    (∀ (finn_split : String → List String) (overwrite : Bool) (epithet : String)
        (init : Submap), ∀ w ∈ wordsOf finn_split epithet,
      containsKey (search_etymologies svc finn_split overwrite epithet init).1 w = true) ∧
    (∀ (finn_split : String → List String) (overwrite : Bool) (epithet : String)
        (init : Submap), (keysOf init).Nodup →
      word ∈ wordsOf finn_split epithet →
      (overwrite = true ∨ containsKey init word = false) →
      getEntry (search_etymologies svc finn_split overwrite epithet init).1 word =
        some none) := by
  have habs : Kotus.search svc word = none := by
    simp [Kotus.search, hex, hmiss]
  refine ⟨habs, ?_, ?_⟩
  · intro finn_split overwrite epithet init w hw
    exact search_covers svc finn_split overwrite epithet init w hw
  · intro finn_split overwrite epithet init hn hw hq
    rw [search_getEntry_queried svc finn_split overwrite epithet hn hw hq, habs]

/-- Witness for C6 at a concrete anomalous service. -/
theorem c6_anomaly_treated_as_absent_witness :
    word_exists svcAnomaly "outo" = true ∧
    (svcAnomaly.qsResults "outo").find? (fun e => e.hakusana == "outo") = none ∧
    Kotus.search svcAnomaly "outo" = none :=
  ⟨by decide, by decide,
    (c6_anomaly_treated_as_absent svcAnomaly "outo" (by decide) (by decide)).1⟩

/-- C7: a word that was looked up (eligible for querying) and confirmed
absent is recorded under an explicit null marker — the key is present in the
resulting submap, mapped to the absent value, never omitted. -/
theorem c7_explicit_absent_marker (svc : KotusService)
    (finn_split : String → List String) (overwrite : Bool) (epithet : String)
    {init : Submap} {word : String}
    (hn : (keysOf init).Nodup)
    (hw : word ∈ wordsOf finn_split epithet)
    (hq : overwrite = true ∨ containsKey init word = false)
    (habs : Kotus.search svc word = none) :
    getEntry (search_etymologies svc finn_split overwrite epithet init).1 word =
      some none ∧
    containsKey (search_etymologies svc finn_split overwrite epithet init).1 word =
      true := by
  have h := search_getEntry_queried svc finn_split overwrite epithet hn hw hq
  rw [habs] at h
  refine ⟨h, ?_⟩
  rw [containsKey, h]
  rfl

/-- Witness for C7: "akka" in the concrete scenario. -/
theorem c7_explicit_absent_marker_witness :
    (keysOf ([] : Submap)).Nodup ∧
    "akka" ∈ wordsOf spC1 "vanha akka" ∧
    Kotus.search svcC1 "akka" = none ∧
    (getEntry (search_etymologies svcC1 spC1 false "vanha akka" []).1 "akka" =
        some none ∧
      containsKey (search_etymologies svcC1 spC1 false "vanha akka" []).1 "akka" =
        true) :=
  ⟨by decide, by decide, by decide,
    c7_explicit_absent_marker svcC1 spC1 false "vanha akka" (by decide) (by decide)
      (Or.inr (by decide)) (by decide)⟩

/-- C8: the decomposition of the normalized epithet is duplicate-free,
contains every whitespace-delimited token of the normalized string, and
contains nothing beyond those tokens and the sub-segments of tokens the
splitter breaks into more than one part. -/
theorem c8_decompose_monotone (finn_split : String → List String) (epithet : String) :
    (to_words finn_split (clean_epithet epithet)).Nodup ∧
    (∀ t ∈ splitOnSpace (clean_epithet epithet),
      t ∈ to_words finn_split (clean_epithet epithet)) ∧
    (∀ x ∈ to_words finn_split (clean_epithet epithet),
      x ∈ splitOnSpace (clean_epithet epithet) ∨
        ∃ seg ∈ splitOnSpace (clean_epithet epithet),
          (finn_split seg).length > 1 ∧ x ∈ finn_split seg) :=
  ⟨to_words_nodup finn_split (clean_epithet epithet),
   to_words_contains_tokens finn_split (clean_epithet epithet),
   to_words_only_adds finn_split (clean_epithet epithet)⟩

/-- Witness for C8 at the concrete scenario's epithet. -/
theorem c8_decompose_monotone_witness :
    "vanha" ∈ splitOnSpace (clean_epithet "vanha akka") ∧
    ("vanha" ∈ to_words spC1 (clean_epithet "vanha akka") ∧
      (to_words spC1 (clean_epithet "vanha akka")).Nodup) :=
  ⟨by decide,
    (c8_decompose_monotone spC1 "vanha akka").2.1 "vanha" (by decide),
    (c8_decompose_monotone spC1 "vanha akka").1⟩

/-- C9: the pipeline only creates or modifies the top-level "etymologies"
key: every other top-level key reads the same in the final document and in
every persisted snapshot as in the loaded document.  (The epithets input
document is only read: the embedding of `update_etymologies` takes the
epithet list and returns no modified version, mirroring the absence of any
write to `epithets_root` in the source.) -/
theorem c9_frame_other_keys (svc : KotusService) (finn_split : String → List String)
    (overwrite : Bool) (root : Root) (epithets : List String)
    (k : String) (hk : k ≠ "etymologies") :
    getEntry (update_etymologies svc finn_split overwrite root epithets).1 k =
      getEntry root k ∧
    ∀ snap ∈ (update_etymologies svc finn_split overwrite root epithets).2.1,
      getEntry snap k = getEntry root k := by
  unfold update_etymologies
  constructor
  · rw [updateGo_getEntry_other svc finn_split overwrite epithets _ k hk]
    exact setdefaultEtym_getEntry_other root hk
  · intro snap hsnap
    rw [updateGo_snaps_getEntry_other svc finn_split overwrite epithets _ k hk snap hsnap]
    exact setdefaultEtym_getEntry_other root hk

/-- Witness for C9 on a document with a foreign top-level key. -/
theorem c9_frame_other_keys_witness :
    "muu" ≠ "etymologies" ∧
    (getEntry (update_etymologies svcC1 spC1 false [("muu", RootVal.blob "data")]
        ["vanha akka"]).1 "muu" =
      getEntry [("muu", RootVal.blob "data")] "muu" ∧
    ∀ snap ∈ (update_etymologies svcC1 spC1 false [("muu", RootVal.blob "data")]
        ["vanha akka"]).2.1,
      getEntry snap "muu" = getEntry [("muu", RootVal.blob "data")] "muu") :=
  ⟨by decide,
    c9_frame_other_keys svcC1 spC1 false [("muu", RootVal.blob "data")] ["vanha akka"]
      "muu" (by decide)⟩

/-- C10: an epithet whose every character is outside the permitted set after
lowercasing normalizes to the empty string; its decomposition is the
singleton set holding the empty string (the real splitter returns a single
part on ""), and when "" is not already recorded the empty string itself is
queried against the lexicon. -/
theorem c10_empty_string_candidate (epithet : String)
    (hall : ∀ c ∈ epithet.data, allowedChar (pyLower c) = false)
    (finn_split : String → List String) (hsp : finn_split "" = [""])
    (svc : KotusService) (init : Submap) (hinit : containsKey init "" = false) :
    clean_epithet epithet = "" ∧
    to_words finn_split (clean_epithet epithet) = [""] ∧
    (search_etymologies svc finn_split false epithet init).2 = [""] := by
  have hclean : clean_epithet epithet = "" := by
    unfold clean_epithet
    have hfilter : (epithet.data.map pyLower).filter allowedChar = [] := by
      rw [List.filter_eq_nil_iff]
      intro a ha
      obtain ⟨c, hc, rfl⟩ := List.mem_map.mp ha
      simp [hall c hc]
    rw [hfilter]
  have hwords : to_words finn_split (clean_epithet epithet) = [""] := by
    rw [hclean, to_words_eq_foldl]
    have hsplit : splitOnSpace "" = [""] := rfl
    rw [hsplit]
    have hd : dedupKeepFirst [""] = [""] := by decide
    rw [hd]
    simp [twStep, hsp]
  refine ⟨hclean, hwords, ?_⟩
  rw [search_etymologies_eq]
  have hw : wordsOf finn_split epithet = [""] := hwords
  rw [hw]
  simp [searchWords, hinit]

/-- Witness for C10 at the epithet "???". -/
theorem c10_empty_string_candidate_witness :
    (∀ c ∈ ("???" : String).data, allowedChar (pyLower c) = false) ∧
    spC1 "" = [""] ∧
    containsKey ([] : Submap) "" = false ∧
    (clean_epithet "???" = "" ∧
      to_words spC1 (clean_epithet "???") = [""] ∧
      (search_etymologies svcC1 spC1 false "???" []).2 = [""]) :=
  ⟨by decide, by decide, by decide,
    c10_empty_string_candidate "???" (by decide) spC1 (by decide) svcC1 [] (by decide)⟩

end Louskuttelua
